import Mathlib

set_option maxHeartbeats 1000000

/-!
Shallow embedding of `src/ext/repo_apk.c` (libsolv's APK package/index reader).

The C file parses Alpine (`apk`) package archives and repository indexes into
package records.  Strings are modelled as `List Char` (the C code works on
NUL-terminated byte strings; end of string is the empty list), interned pool
ids for plain strings as the string itself, and interned relation ids as the
inductive `Dep` (interning is injective on distinct textual expressions, so a
relation id is modelled by the expression tree it denotes).  The external
attribute store (`repodata_set_*`) is modelled as a journal of writes; the
value of a scalar key after `repodata_internalize` is the last write for it.

External collaborators that the C file only calls (pool interning, repodata,
tarhead, zlib, chksum) are modelled at their interface boundary; in
particular the numeric values of the relation flag constants below come from
the external pool interface (`pool.h`), not from the analyzed source.
-/

-- Relation flag constants of the external pool interface (REL_GT etc.).
def REL_GT : Nat := 1

def REL_EQ : Nat := 2

def REL_LT : Nat := 4

def REL_AND : Nat := 16

/-- Interned dependency relation: either a plain interned string
(`pool_strn2id`) or a compound relation (`pool_rel2id` with name, evr and
flags).  Pool interning gives equal ids exactly for equal expressions, so the
expression tree itself serves as the id. -/
inductive Dep where
  | str : List Char → Dep
  | rel : Dep → Dep → Nat → Dep
deriving DecidableEq

/-- The `what` selector passed to `add_deps`:
SOLVABLE_PROVIDES / SOLVABLE_REQUIRES / SOLVABLE_CONFLICTS /
SOLVABLE_SUPPLEMENTS. -/
inductive What where
  | prov
  | req
  | con
  | supp
deriving DecidableEq

/-- Checksum algorithm tags used by this file (REPOKEY_TYPE_SHA1 /
REPOKEY_TYPE_SHA256). -/
inductive ChkType where
  | sha1
  | sha256
deriving DecidableEq

/-- Attribute-store keys written by the parser (SOLVABLE_SUMMARY etc.). -/
inductive AttrKey where
  | summary
  | descr
  | url
  | buildtime
  | installsize
  | packager
  | license
  | sourcename
  | hdrid
deriving DecidableEq

/-- Attribute-store values: `repodata_set_str`, `repodata_set_num`,
`repodata_set_id`, `repodata_set_void`, `repodata_set_bin_checksum`. -/
inductive AttrVal where
  | str : List Char → AttrVal
  | num : Nat → AttrVal
  | idv : List Char → AttrVal
  | void : AttrVal
  | chk : ChkType → List Nat → AttrVal
deriving DecidableEq

/-- The record being built: the `Solvable` fields touched by the parser plus
the journal of attribute-store writes and the local `haveorigin` flag. -/
structure PkgState where
  name : Option (List Char) := none
  evr : Option (List Char) := none
  arch : Option (List Char) := none
  provides : List Dep := []
  requires : List Dep := []
  conflicts : List Dep := []
  supplements : List Dep := []
  attrs : List (AttrKey × AttrVal) := []
  haveorigin : Bool := false
deriving DecidableEq

/-- Fresh record as created by `repo_add_solvable`. -/
def initPkg : PkgState := {}

/-- A finalized package record (name present, defaults applied). -/
structure FinalPkg where
  name : List Char
  evr : List Char
  arch : List Char
  provides : List Dep
  requires : List Dep
  conflicts : List Dep
  supplements : List Dep
  attrs : List (AttrKey × AttrVal)
deriving DecidableEq

/-- Value of a scalar attribute key after internalize: the last write wins. -/
def lastAttr (attrs : List (AttrKey × AttrVal)) (k : AttrKey) : Option AttrVal :=
  (attrs.reverse.find? (fun a => a.1 == k)).map (fun a => a.2)

/-! ## add_deps (dependency expression parser), repo_apk.c lines 127-181 -/

/-- The `while (*p == ' ' || *p == '\t') p++;` loop at the top of each
`add_deps` iteration. -/
def skipWS : List Char → List Char
  | [] => []
  | c :: p => if c = ' ' ∨ c = '\t' then skipWS p else c :: p

/-- Characters terminating an atom name:
`*p != ' ' && *p != '\t' && *p != '<' && *p != '>' && *p != '=' && *p != '~'`. -/
def isNameStop (c : Char) : Bool :=
  c = ' ' ∨ c = '\t' ∨ c = '<' ∨ c = '>' ∨ c = '=' ∨ c = '~'

/-- Scan the atom name (`pn = p; while (...) p++;`), returning the name and
the rest of the input. -/
def takeName : List Char → List Char × List Char
  | [] => ([], [])
  | c :: p =>
    if isNameStop c then ([], c :: p)
    else (c :: (takeName p).1, (takeName p).2)

/-- The comparison-operator loop (`for (; *p; p++) { ... else break; }`),
accumulating REL_LT/REL_GT/REL_EQ flags. -/
def takeFlags : List Char → Nat × List Char
  | [] => (0, [])
  | c :: p =>
    if c = '<' then ((takeFlags p).1 ||| REL_LT, (takeFlags p).2)
    else if c = '>' then ((takeFlags p).1 ||| REL_GT, (takeFlags p).2)
    else if c = '=' then ((takeFlags p).1 ||| REL_EQ, (takeFlags p).2)
    else (0, c :: p)

/-- Scan the version text (`pv = p; while (*p && *p != ' ' && *p != '\t') p++;`). -/
def takeVer : List Char → List Char × List Char
  | [] => ([], [])
  | c :: p =>
    if c = ' ' ∨ c = '\t' then ([], c :: p)
    else (c :: (takeVer p).1, (takeVer p).2)

/-- One iteration of the `add_deps` atom loop after whitespace skipping:
optional `!` reclassification (require kind only), name scan, operator run,
the `if (*p == '~') flags |= REL_EQ;` peek (note: the `~` is not consumed),
and the version scan when any flag is set.  Returns the effective kind, the
relation id, and the rest of the input. -/
def procAtom (w : What) (q : List Char) : What × Dep × List Char :=
  let s1 := if w = What.req ∧ q.head? = some '!' then (What.con, q.tail) else (w, q)
  let n1 := takeName s1.2
  let f1 := takeFlags n1.2
  let flags := if f1.2.head? = some '~' then f1.1 ||| REL_EQ else f1.1
  if flags ≠ 0 then
    let v1 := takeVer f1.2
    (s1.1, Dep.rel (Dep.str n1.1) (Dep.str v1.1) flags, v1.2)
  else
    (s1.1, Dep.str n1.1, f1.2)

/-- Route one finished atom to its target: appends to the provides / requires
/ conflicts list (`repo_addid_dep`), or AND-combines into the supplements
accumulator (`supplements = supplements ? pool_rel2id(pool, id, supplements,
REL_AND, 1) : id;`). -/
def appendDepFull (w : What) (d : Dep) (sa : PkgState × Option Dep) : PkgState × Option Dep :=
  match w with
  | What.prov => ({ sa.1 with provides := sa.1.provides ++ [d] }, sa.2)
  | What.req => ({ sa.1 with requires := sa.1.requires ++ [d] }, sa.2)
  | What.con => ({ sa.1 with conflicts := sa.1.conflicts ++ [d] }, sa.2)
  | What.supp => (sa.1, some (match sa.2 with | none => d | some s => Dep.rel d s REL_AND))

/-- The `while (*p)` loop of `add_deps`.  Each iteration consumes at least
one character unless the whitespace skip reaches the end of the line, in
which case one final (empty-named) atom is processed and the next loop test
exits; `fuel = length + 1` therefore always suffices. -/
def addDepsLoop (w : What) : Nat → List Char → PkgState × Option Dep → PkgState × Option Dep
  | 0, _, sa => sa
  | fuel + 1, p, sa =>
    if p = [] then sa
    else
      let q := skipWS p
      let r := procAtom w q
      addDepsLoop w fuel r.2.2 (appendDepFull r.1 r.2.1 sa)

/-- `add_deps` of repo_apk.c: parse one dependency line into the record,
flushing the supplements accumulator after the loop. -/
def add_deps (w : What) (p : List Char) (st : PkgState) : PkgState :=
  let sa := addDepsLoop w (p.length + 1) p (st, none)
  match sa.2 with
  | none => sa.1
  | some d => { sa.1 with supplements := sa.1.supplements ++ [d] }

/-! ## apk_add_hdrid (checksum-string decoder), repo_apk.c lines 340-382 -/

/-- Decode one character of the modified base64 body (the `if`/`else if`
ladder inside the decoding loop); `= ` is accepted, as value 0, only at index
`xpos`.  `none` models the bare `return` that abandons the whole token. -/
def decChar (xpos i : Nat) (c : Char) : Option Nat :=
  if 'A' ≤ c ∧ c ≤ 'Z' then some (c.toNat - 'A'.toNat)
  else if 'a' ≤ c ∧ c ≤ 'z' then some (c.toNat - 'a'.toNat + 26)
  else if '0' ≤ c ∧ c ≤ '9' then some (c.toNat - '0'.toNat + 52)
  else if c = '+' then some 62
  else if c = '/' then some 63
  else if c = '=' ∧ i = xpos then some 0
  else none

/-- The decoding loop of `apk_add_hdrid`: accumulate 6-bit groups
(`v = v << 6 | x`), emitting three bytes per four characters
(`*cp++ = v >> 16; *cp++ = v >> 8; if (i != xpos) *cp++ = v;`). -/
def apkDecodeBody (xpos : Nat) : Nat → Nat → List Char → Option (List Nat)
  | _, _, [] => some []
  | i, v, c :: cs =>
    match decChar xpos i c with
    | none => none
    | some x =>
      let v2 := (v <<< 6) ||| x
      if i % 4 = 3 then
        match apkDecodeBody xpos (i + 1) 0 cs with
        | none => none
        | some bs =>
          some ((v2 >>> 16) % 256 :: (v2 >>> 8) % 256 ::
            ((if i ≠ xpos then [v2 % 256] else []) ++ bs))
      else
        apkDecodeBody xpos (i + 1) v2 cs

/-- `apk_add_hdrid`: decode a textual checksum token; `some (type, bytes)`
models the `repodata_set_bin_checksum` call on SOLVABLE_HDRID, `none` models
returning without a write.  The gate condition and the `l == 28 ?
REPOKEY_TYPE_SHA1 : REPOKEY_TYPE_SHA256` selection are taken verbatim from
the source. -/
def apk_add_hdrid (idstr : List Char) : Option (ChkType × List Nat) :=
  let l := idstr.length
  if ((l = 30 ∨ l = 46) ∧ idstr.get? 0 = some 'Q' ∧ idstr.get? 1 = some '1') ∨
      (idstr.get? 1 = some '2' ∧ l = 46) then
    let xpos := if idstr.get? 1 = some '2' then 43 else 27
    match apkDecodeBody xpos 0 0 (idstr.drop 2) with
    | none => none
    | some bs => some (if l - 2 = 28 then ChkType.sha1 else ChkType.sha256, bs)
  else none

/-! ## Control-record parser, archive dialect (repo_add_apk_pkg),
repo_apk.c lines 183-338 -/

/-- Model of `strncmp(line, key, strlen(key)) == 0` combined with the
subsequent `line + strlen(key)`: returns the text after the key when the key
is a prefix, else `none`. -/
def dropPfx : List Char → List Char → Option (List Char)
  | [], l => some l
  | _, [] => none
  | a :: pr, b :: l => if a = b then dropPfx pr l else none

/-- The `if (l && line[l - 1] == '\n') line[--l] = 0;` newline strip. -/
def stripNL (l : List Char) : List Char :=
  if l.getLast? = some '\n' then l.dropLast else l

/-- Decimal number parse modelling `strtoull(s, 0, 10)` on the values this
parser feeds it (optional leading blanks, then a digit run). -/
def parseDec : List Char → Nat → Nat
  | [], acc => acc
  | c :: r, acc =>
    if '0' ≤ c ∧ c ≤ '9' then parseDec r (acc * 10 + (c.toNat - '0'.toNat)) else acc

/-- Number value stored by `repodata_set_num` for a textual field. -/
def parseNum (l : List Char) : Nat :=
  parseDec (l.dropWhile (fun c => c = ' ')) 0

/-- The `origin = ` / `o:` rule shared by both dialects: a source name equal
to the already-known package name is stored as the valueless marker
(`repodata_set_void`), otherwise as an interned id
(`repodata_set_id`); sets `haveorigin`. -/
def setOrigin (v : List Char) (st : PkgState) : PkgState :=
  let st2 :=
    match st.name with
    | some n =>
      if v = n then { st with attrs := st.attrs ++ [(AttrKey.sourcename, AttrVal.void)] }
      else { st with attrs := st.attrs ++ [(AttrKey.sourcename, AttrVal.idv v)] }
    | none => { st with attrs := st.attrs ++ [(AttrKey.sourcename, AttrVal.idv v)] }
  { st2 with haveorigin := true }

/-- One line of the `.PKGINFO` loop (repo_apk.c lines 250-294): newline
strip, blank/comment skip, then the `strncmp` dispatch ladder in source
order.  (The optional MD5 accumulation over raw lines is an abstracted
digest over the byte stream and is not modelled.) -/
def pkginfo_line (st : PkgState) (line : List Char) : PkgState :=
  let l2 := stripNL line
  if l2 = [] ∨ l2.head? = some '#' then st
  else
    match dropPfx "pkgname = ".toList l2 with
    | some v => { st with name := some v }
    | none =>
    match dropPfx "pkgver = ".toList l2 with
    | some v => { st with evr := some v }
    | none =>
    match dropPfx "pkgdesc = ".toList l2 with
    | some v =>
      { st with attrs := st.attrs ++
          [(AttrKey.summary, AttrVal.str v), (AttrKey.descr, AttrVal.str v)] }
    | none =>
    match dropPfx "url = ".toList l2 with
    | some v => { st with attrs := st.attrs ++ [(AttrKey.url, AttrVal.str v)] }
    | none =>
    match dropPfx "builddate = ".toList l2 with
    | some v => { st with attrs := st.attrs ++ [(AttrKey.buildtime, AttrVal.num (parseNum v))] }
    | none =>
    match dropPfx "packager = ".toList l2 with
    | some v => { st with attrs := st.attrs ++ [(AttrKey.packager, AttrVal.str v)] }
    | none =>
    match dropPfx "size = ".toList l2 with
    | some v => { st with attrs := st.attrs ++ [(AttrKey.installsize, AttrVal.num (parseNum v))] }
    | none =>
    match dropPfx "arch = ".toList l2 with
    | some v => { st with arch := some v }
    | none =>
    match dropPfx "license = ".toList l2 with
    | some v => { st with attrs := st.attrs ++ [(AttrKey.license, AttrVal.str v)] }
    | none =>
    match dropPfx "origin = ".toList l2 with
    | some v => setOrigin v st
    | none =>
    match dropPfx "depend = ".toList l2 with
    | some v => add_deps What.req v st
    | none =>
    match dropPfx "provides = ".toList l2 with
    | some v => add_deps What.prov v st
    | none =>
    match dropPfx "install_if = ".toList l2 with
    | some v => add_deps What.supp v st
    | none => st

/-- Finalize defaults shared by both dialects (repo_apk.c lines 304-313 and
401-410): `ARCH_NOARCH` default, `ID_EMPTY` (empty string) version default,
the synthetic self-provides `name == evr` relation, and the valueless
source-name default when no origin field was seen. -/
def finalizeCommon (st : PkgState) (n : List Char) : FinalPkg :=
  let arch := st.arch.getD "noarch".toList
  let evr := st.evr.getD []
  { name := n
    evr := evr
    arch := arch
    provides := st.provides ++ [Dep.rel (Dep.str n) (Dep.str evr) REL_EQ]
    requires := st.requires
    conflicts := st.conflicts
    supplements := st.supplements
    attrs :=
      if st.haveorigin then st.attrs
      else st.attrs ++ [(AttrKey.sourcename, AttrVal.void)] }

/-- One tar entry as reported by the external `tarhead` reader: entry type,
path, declared byte length, and the entry body as the lines `tarhead_gets`
would yield. -/
structure TarEntry where
  etype : Nat
  path : List Char
  length : Nat
  lines : List (List Char)
deriving DecidableEq

/-- Outcome of `repo_add_apk_pkg`: a finalized record, or one of the
reported failures (the C function reports via `pool_error` and returns 0),
or return 0 with no record and no reported error (no `.PKGINFO` entry). -/
inductive ApkPkgResult where
  | ok : FinalPkg → ApkPkgResult
  | errOversized : ApkPkgResult
  | errNoName : ApkPkgResult
  | noPkg : ApkPkgResult
deriving DecidableEq

/-- The `while (tarhead_next(&th) > 0)` entry loop (repo_apk.c lines
235-295): skip entries that are not a regular-file `.PKGINFO` or that arrive
after one was already processed; reject an oversized `.PKGINFO` (`break`
with the error flag); otherwise build the record from the entry's lines.
Returns the record state and whether the oversized error fired. -/
def apkPkgEntryLoop : List TarEntry → Option PkgState → Option PkgState × Bool
  | [], s => (s, false)
  | e :: rest, s =>
    if e.etype ≠ 1 ∨ e.path ≠ ".PKGINFO".toList ∨ s.isSome then
      apkPkgEntryLoop rest s
    else if e.length > 10 * 1024 * 1024 then
      (s, true)
    else
      apkPkgEntryLoop rest (some (e.lines.foldl pkginfo_line initPkg))

/-- `repo_add_apk_pkg` on an archive whose control segment contains the
given tar entries.  (File open, gzip decompression, the signature-segment
skip and the optional MD5/SHA1 digests are external byte-stream concerns
abstracted away; the parsing and finalization logic is modelled in full.) -/
def repo_add_apk_pkg (entries : List TarEntry) : ApkPkgResult :=
  match apkPkgEntryLoop entries none with
  | (_, true) => ApkPkgResult.errOversized
  | (none, false) => ApkPkgResult.noPkg
  | (some st, false) =>
    match st.name with
    | none => ApkPkgResult.errNoName
    | some n => ApkPkgResult.ok (finalizeCommon st n)

/-- Ingest a single `.PKGINFO` metadata block (a regular-file tar entry of
that name with an in-cap declared size). -/
def apk_pkg_of_block (lines : List (List Char)) : ApkPkgResult :=
  repo_add_apk_pkg [{ etype := 1, path := ".PKGINFO".toList, length := 0, lines := lines }]

/-! ## Control-record parser, index dialect (apk_process_index),
repo_apk.c lines 384-465 -/

/-- Index-dialect finalize (repo_apk.c lines 396-413): a record with no name
is discarded (`repo_free_solvable`), otherwise defaults and the
self-provides relation are applied. -/
def finalizeIdx (st : PkgState) : List FinalPkg :=
  match st.name with
  | none => []
  | some n => [finalizeCommon st n]

/-- Single-letter field dispatch of the index dialect (repo_apk.c lines
428-462), in source order.  `line` has already been newline-stripped and is
known to have `':'` as its second character. -/
def idxDispatch (line : List Char) (st : PkgState) : PkgState :=
  let v := line.drop 2
  if line.head? = some 'P' then { st with name := some v }
  else if line.head? = some 'V' then { st with evr := some v }
  else if line.head? = some 'T' then
    { st with attrs := st.attrs ++
        [(AttrKey.summary, AttrVal.str v), (AttrKey.descr, AttrVal.str v)] }
  else if line.head? = some 'U' then { st with attrs := st.attrs ++ [(AttrKey.url, AttrVal.str v)] }
  else if line.head? = some 't' then
    { st with attrs := st.attrs ++ [(AttrKey.buildtime, AttrVal.num (parseNum v))] }
  else if line.head? = some 'I' then
    { st with attrs := st.attrs ++ [(AttrKey.installsize, AttrVal.num (parseNum v))] }
  else if line.head? = some 'A' then { st with arch := some v }
  else if line.head? = some 'L' then
    { st with attrs := st.attrs ++ [(AttrKey.license, AttrVal.str v)] }
  else if line.head? = some 'o' then setOrigin v st
  else if line.head? = some 'D' then add_deps What.req v st
  else if line.head? = some 'p' then add_deps What.prov v st
  else if line.head? = some 'i' then add_deps What.supp v st
  else if line.head? = some 'C' then
    match apk_add_hdrid v with
    | some tb => { st with attrs := st.attrs ++ [(AttrKey.hdrid, AttrVal.chk tb.1 tb.2)] }
    | none => st
  else st

/-- The `for (;;)` line loop of `apk_process_index`.  `tarhead_gets`
returning 0 (end of the entry) is the end of the line list; an empty line in
the list is treated the same way, as the C reader cannot yield one.  A blank
line (`"\n"`) closes the open record; non-field lines are skipped; a record
opens lazily at the first field line. -/
def apkIdxLoop : List (List Char) → Option PkgState → List FinalPkg → List FinalPkg
  | [], s, acc =>
    (match s with
     | some st => acc ++ finalizeIdx st
     | none => acc)
  | line :: rest, s, acc =>
    let sa :=
      match s with
      | some st =>
        if line = [] ∨ line = ['\n'] then ((none : Option PkgState), acc ++ finalizeIdx st)
        else (some st, acc)
      | none => (none, acc)
    if line = [] then sa.2
    else
      let l2 := stripNL line
      if l2.length < 2 ∨ l2.get? 1 ≠ some ':' then apkIdxLoop rest sa.1 sa.2
      else
        let st := match sa.1 with | some st => st | none => initPkg
        apkIdxLoop rest (some (idxDispatch l2 st)) sa.2

/-- `apk_process_index`: parse one index entry (a blank-line separated
sequence of record blocks) into the finalized records it appends to the
repository, in order. -/
def apk_process_index (lines : List (List Char)) : List FinalPkg :=
  apkIdxLoop lines none []

/-! ## Ingestion entry point repo_add_apk_repo, repo_apk.c lines 467-490 -/

/-- `repo_add_apk_repo` with APK_ADD_INDEX set: the stream is one raw index;
the C function always returns 0. -/
def repo_add_apk_repo_raw (lines : List (List Char)) : List FinalPkg × Nat :=
  (apk_process_index lines, 0)

/-- `repo_add_apk_repo` without APK_ADD_INDEX: scan the container for
regular-file entries named `APKINDEX` and process each; always returns 0. -/
def repo_add_apk_repo_scan (entries : List TarEntry) : List FinalPkg × Nat :=
  (entries.foldl
    (fun acc e =>
      if e.etype ≠ 1 ∨ e.path ≠ "APKINDEX".toList then acc
      else acc ++ apk_process_index e.lines)
    [], 0)

/-! ## Decompressing stream adapter (apkz_read), repo_apk.c lines 62-109

The zlib inflater is an external library; it is modelled here at its
interface boundary as a nondeterministic step relation over the observable
counters of `apkz_read`: buffered undecoded input (`zs.avail_in`), remaining
output room in the caller's buffer (`zs.avail_out`), raw bytes still
unread from the file, and the inflater's consumption within the current
compressed segment of length `C` (a lawful inflater consumes only bytes of
the segment and reports `Z_STREAM_END` exactly when the segment's last byte
has been consumed).  The callback amount is the code's
`old_avail_in - zs.avail_in` difference, accumulated in `cbSum`. -/

/-- Observable state of the adapter while decoding one segment. -/
structure ZConfig where
  eofFlag : Bool
  availIn : Nat
  availOut : Nat
  src : Nat
  consumed : Nat
  cbSum : Nat
deriving DecidableEq

/-- One observable step of `apkz_read` while decoding a segment of
compressed length `C`: a new `read` call from the caller (any buffer size),
a refill of the internal buffer (`read(fd, buf, 65536)`, any positive chunk
the kernel returns), or one successful `inflate` call consuming `c` raw
bytes and producing `o` output bytes, reporting `Z_STREAM_END` exactly at
the segment's last consumed byte.  After a non-OK, non-END inflate result
`apkz_read` returns -1 and the segment never reports its end marker, so
error steps do not occur on a lifetime that ends in the end marker. -/
inductive ApkzStep (C : Nat) : ZConfig → ZConfig → Prop
  | callRead (cfg : ZConfig) (len : Nat) (h : cfg.eofFlag = false) :
      ApkzStep C cfg { cfg with availOut := len }
  | refill (cfg : ZConfig) (rr : Nat) (h0 : cfg.availIn = 0) (h1 : 0 < rr)
      (h2 : rr ≤ 65536) (h3 : rr ≤ cfg.src) :
      ApkzStep C cfg { cfg with availIn := rr, src := cfg.src - rr }
  | inflateStep (cfg : ZConfig) (c o : Nat) (isEnd : Bool)
      (hc : c ≤ cfg.availIn) (hseg : cfg.consumed + c ≤ C) (ho : o ≤ cfg.availOut)
      (hend : isEnd = true → cfg.consumed + c = C) :
      ApkzStep C cfg
        { cfg with
          availIn := cfg.availIn - c
          availOut := cfg.availOut - o
          consumed := cfg.consumed + c
          cbSum := cfg.cbSum + (cfg.availIn - (cfg.availIn - c))
          eofFlag := cfg.eofFlag || isEnd }

/-! ## Auxiliary predicates used in theorem statements -/

/-- Does the line end in a trailing blank (space or tab)? -/
def endsWS : List Char → Bool
  | [] => false
  | [c] => c = ' ' ∨ c = '\t'
  | _ :: c :: r => endsWS (c :: r)

/-- Flags accumulated by `takeFlags` over a pure operator run. -/
def opsFlags : List Char → Nat
  | [] => 0
  | c :: r =>
    opsFlags r |||
      (if c = '<' then REL_LT else if c = '>' then REL_GT else if c = '=' then REL_EQ else 0)

/-- Does an index line set the record's name (a well-formed `P:` field)? -/
def setsName (l : List Char) : Bool :=
  decide (2 ≤ (stripNL l).length) && ((stripNL l).get? 1 == some ':') &&
    ((stripNL l).head? == some 'P')

/-! ## Lemmas: scanning primitives of add_deps -/

theorem or_ne_zero_of_right (x y : Nat) (hy : y ≠ 0) : x ||| y ≠ 0 := by
  intro h
  obtain ⟨i, hi, -⟩ := Nat.exists_most_significant_bit hy
  have h2 := congrArg (fun n => Nat.testBit n i) h
  simp [Nat.testBit_lor, hi] at h2

theorem takeName_rest_length (p : List Char) : (takeName p).2.length ≤ p.length := by
  induction p with
  | nil => simp [takeName]
  | cons c r ih =>
    simp only [takeName]
    by_cases h : isNameStop c
    · simp [h]
    · simp only [h]
      simp only [Bool.false_eq_true, if_false, List.length_cons]
      omega

theorem takeFlags_rest_length (p : List Char) : (takeFlags p).2.length ≤ p.length := by
  induction p with
  | nil => simp [takeFlags]
  | cons c r ih =>
    simp only [takeFlags]
    by_cases h1 : c = '<'
    · simp [h1]; omega
    · by_cases h2 : c = '>'
      · simp [h1, h2]; omega
      · by_cases h3 : c = '='
        · simp [h1, h2, h3]; omega
        · simp [h1, h2, h3]

theorem takeVer_rest_length (p : List Char) : (takeVer p).2.length ≤ p.length := by
  induction p with
  | nil => simp [takeVer]
  | cons c r ih =>
    simp only [takeVer]
    by_cases h : c = ' ' ∨ c = '\t'
    · simp [h]
    · simp only [h, if_false, List.length_cons]; omega

theorem skipWS_length (p : List Char) : (skipWS p).length ≤ p.length := by
  induction p with
  | nil => simp [skipWS]
  | cons c r ih =>
    simp only [skipWS]
    by_cases h : c = ' ' ∨ c = '\t'
    · simp only [h, if_true, List.length_cons]; omega
    · simp [h]

theorem skipWS_head (p : List Char) :
    skipWS p = [] ∨ ∃ c r, skipWS p = c :: r ∧ c ≠ ' ' ∧ c ≠ '\t' := by
  induction p with
  | nil => left; rfl
  | cons c r ih =>
    simp only [skipWS]
    by_cases h : c = ' ' ∨ c = '\t'
    · simp only [h, if_true]; exact ih
    · right
      exact ⟨c, r, by simp [h], fun e => h (Or.inl e), fun e => h (Or.inr e)⟩

theorem endsWS_ne_nil (p : List Char) (h : endsWS p = true) : p ≠ [] := by
  cases p with
  | nil => simp [endsWS] at h
  | cons c r => simp

theorem endsWS_cons_elim (c : Char) (r : List Char) (h : endsWS (c :: r) = true)
    (hc : c ≠ ' ') (ht : c ≠ '\t') : r ≠ [] ∧ endsWS r = true := by
  cases r with
  | nil => simp [endsWS, hc, ht] at h
  | cons a r2 => exact ⟨by simp, h⟩

theorem skipWS_ends (p : List Char) (h : endsWS p = true) :
    skipWS p = [] ∨ endsWS (skipWS p) = true := by
  induction p with
  | nil => left; rfl
  | cons c r ih =>
    simp only [skipWS]
    by_cases hw : c = ' ' ∨ c = '\t'
    · simp only [hw, if_true]
      cases r with
      | nil => left; rfl
      | cons a r2 => exact ih h
    · simp only [hw, if_false]
      right; exact h

theorem takeName_rest_ends (p : List Char) (h : endsWS p = true) :
    endsWS (takeName p).2 = true := by
  induction p with
  | nil => simp [endsWS] at h
  | cons c r ih =>
    simp only [takeName]
    by_cases hs : isNameStop c
    · simp only [hs, if_true]; exact h
    · have hc : c ≠ ' ' := by intro e; subst e; exact hs (by decide)
      have ht : c ≠ '\t' := by intro e; subst e; exact hs (by decide)
      obtain ⟨-, h2⟩ := endsWS_cons_elim c r h hc ht
      simp only [hs, Bool.false_eq_true, if_false]
      exact ih h2

theorem takeFlags_rest_ends (p : List Char) (h : endsWS p = true) :
    endsWS (takeFlags p).2 = true := by
  induction p with
  | nil => simp [endsWS] at h
  | cons c r ih =>
    simp only [takeFlags]
    by_cases h1 : c = '<'
    · subst h1
      obtain ⟨-, h2⟩ := endsWS_cons_elim _ r h (by decide) (by decide)
      simp only [if_true]; exact ih h2
    · by_cases h2 : c = '>'
      · subst h2
        obtain ⟨-, h3⟩ := endsWS_cons_elim _ r h (by decide) (by decide)
        simp only [h1, if_false, if_true]; exact ih h3
      · by_cases h3 : c = '='
        · subst h3
          obtain ⟨-, h4⟩ := endsWS_cons_elim _ r h (by decide) (by decide)
          simp only [h1, h2, if_false, if_true]; exact ih h4
        · simp only [h1, h2, h3, if_false]; exact h

theorem takeVer_rest_ends (p : List Char) (h : endsWS p = true) :
    endsWS (takeVer p).2 = true := by
  induction p with
  | nil => simp [endsWS] at h
  | cons c r ih =>
    simp only [takeVer]
    by_cases hw : c = ' ' ∨ c = '\t'
    · simp only [hw, if_true]; exact h
    · have hc : c ≠ ' ' := fun e => hw (Or.inl e)
      have ht : c ≠ '\t' := fun e => hw (Or.inr e)
      obtain ⟨-, h2⟩ := endsWS_cons_elim c r h hc ht
      simp only [hw, if_false]
      exact ih h2

/-! ## Lemmas: one add_deps atom -/

theorem takeName_cons_stop (c : Char) (r : List Char) (h : isNameStop c = true) :
    takeName (c :: r) = ([], c :: r) := by
  simp [takeName, h]

theorem takeFlags_cons_other (c : Char) (r : List Char) (h1 : c ≠ '<') (h2 : c ≠ '>')
    (h3 : c ≠ '=') : takeFlags (c :: r) = (0, c :: r) := by
  simp [takeFlags, h1, h2, h3]

theorem takeVer_cons_go (c : Char) (r : List Char) (hc : c ≠ ' ') (ht : c ≠ '\t') :
    takeVer (c :: r) = (c :: (takeVer r).1, (takeVer r).2) := by
  have h : ¬(c = ' ' ∨ c = '\t') := by tauto
  simp [takeVer, h]

theorem procAtom_nil (w : What) : procAtom w [] = (w, Dep.str [], []) := by
  cases w <;> rfl

theorem procAtom_rest_le_flags (w : What) (q : List Char) :
    (procAtom w q).2.2.length ≤
      (takeFlags (takeName (if w = What.req ∧ q.head? = some '!' then q.tail else q)).2).2.length := by
  simp only [procAtom]
  split_ifs
  all_goals try dsimp only
  all_goals first
    | exact takeVer_rest_length _
    | exact le_refl _

theorem procAtom_rest_lt (w : What) (c : Char) (r : List Char)
    (hc : c ≠ ' ') (ht : c ≠ '\t') :
    (procAtom w (c :: r)).2.2.length < (c :: r).length := by
  have hle := procAtom_rest_le_flags w (c :: r)
  by_cases hb : w = What.req ∧ (c :: r).head? = some '!'
  · rw [if_pos hb] at hle
    simp only [List.tail_cons] at hle
    have h1 := takeFlags_rest_length (takeName r).2
    have h2 := takeName_rest_length r
    simp only [List.length_cons]
    omega
  · rw [if_neg hb] at hle
    by_cases hs : isNameStop c
    · have hcs : c = '<' ∨ c = '>' ∨ c = '=' ∨ c = '~' := by
        by_contra hno
        push_neg at hno
        obtain ⟨e1, e2, e3, e4⟩ := hno
        simp [isNameStop, hc, ht, e1, e2, e3, e4] at hs
      rcases hcs with h1 | h1 | h1 | h1
      · subst h1
        rw [takeName_cons_stop _ r (by decide)] at hle
        dsimp only at hle
        rw [show takeFlags ('<' :: r) = ((takeFlags r).1 ||| REL_LT, (takeFlags r).2) from by
          simp [takeFlags]] at hle
        dsimp only at hle
        have := takeFlags_rest_length r
        simp only [List.length_cons]
        omega
      · subst h1
        rw [takeName_cons_stop _ r (by decide)] at hle
        dsimp only at hle
        rw [show takeFlags ('>' :: r) = ((takeFlags r).1 ||| REL_GT, (takeFlags r).2) from by
          simp [takeFlags]] at hle
        dsimp only at hle
        have := takeFlags_rest_length r
        simp only [List.length_cons]
        omega
      · subst h1
        rw [takeName_cons_stop _ r (by decide)] at hle
        dsimp only at hle
        rw [show takeFlags ('=' :: r) = ((takeFlags r).1 ||| REL_EQ, (takeFlags r).2) from by
          simp [takeFlags]] at hle
        dsimp only at hle
        have := takeFlags_rest_length r
        simp only [List.length_cons]
        omega
      · subst h1
        simp only [procAtom, if_neg hb]
        try dsimp only
        rw [takeName_cons_stop _ r (by decide),
          takeFlags_cons_other _ r (by decide) (by decide) (by decide)]
        try dsimp only
        have hpk : (('~' :: r).head? = some '~') := rfl
        rw [if_pos hpk, if_pos (show (0 : Nat) ||| REL_EQ ≠ 0 from by decide)]
        try dsimp only
        rw [takeVer_cons_go _ r (by decide) (by decide)]
        try dsimp only
        have := takeVer_rest_length r
        simp only [List.length_cons]
        omega
    · rw [show takeName (c :: r) = (c :: (takeName r).1, (takeName r).2) from by
        simp [takeName, hs]] at hle
      dsimp only at hle
      have h1 := takeFlags_rest_length (takeName r).2
      have h2 := takeName_rest_length r
      simp only [List.length_cons]
      omega

theorem procAtom_rest_ends (w : What) (q : List Char) (h : endsWS q = true) :
    endsWS (procAtom w q).2.2 = true := by
  have key : ∀ m : List Char, endsWS m = true →
      endsWS (takeVer (takeFlags (takeName m).2).2).2 = true ∧
        endsWS (takeFlags (takeName m).2).2 = true := fun m hm =>
    ⟨takeVer_rest_ends _ (takeFlags_rest_ends _ (takeName_rest_ends _ hm)),
      takeFlags_rest_ends _ (takeName_rest_ends _ hm)⟩
  by_cases hb : w = What.req ∧ q.head? = some '!'
  · have hh := hb.2
    cases q with
    | nil => simp at hh
    | cons a r =>
      have ha : a = '!' := by simpa using hh
      subst ha
      obtain ⟨-, hr⟩ := endsWS_cons_elim _ r h (by decide) (by decide)
      simp only [procAtom, if_pos hb]
      try dsimp only
      split_ifs
      all_goals try dsimp only
      all_goals first
        | exact (key r hr).1
        | exact (key r hr).2
  · simp only [procAtom, if_neg hb]
    try dsimp only
    split_ifs
    all_goals try dsimp only
    all_goals first
      | exact (key q h).1
      | exact (key q h).2

theorem procAtom_fst (w : What) (q : List Char) (hw : w ≠ What.req) : (procAtom w q).1 = w := by
  simp only [procAtom, if_neg (fun h : w = What.req ∧ q.head? = some '!' => hw h.1)]
  try dsimp only
  split_ifs <;> rfl

theorem addDepsLoop_nil (w : What) (fuel : Nat) (sa : PkgState × Option Dep) :
    addDepsLoop w fuel [] sa = sa := by
  cases fuel <;> simp [addDepsLoop]

theorem addDepsLoop_supp_fst (fuel : Nat) :
    ∀ (p : List Char) (sa : PkgState × Option Dep),
      (addDepsLoop What.supp fuel p sa).1 = sa.1 := by
  induction fuel with
  | zero => intro p sa; rfl
  | succ fuel ih =>
    intro p sa
    simp only [addDepsLoop]
    by_cases hp : p = []
    · rw [if_pos hp]
    · rw [if_neg hp, ih, procAtom_fst _ _ (by decide)]
      rfl

theorem addDepsLoop_trailing (w : What) (fuel : Nat) :
    ∀ (p : List Char) (sa : PkgState × Option Dep), p.length < fuel → endsWS p = true →
      ∃ sa2, addDepsLoop w fuel p sa = appendDepFull w (Dep.str []) sa2 := by
  induction fuel with
  | zero => intro p sa h; omega
  | succ fuel ih =>
    intro p sa hlen hws
    have hp : p ≠ [] := endsWS_ne_nil p hws
    simp only [addDepsLoop]
    rw [if_neg hp]
    rcases skipWS_head p with hq | ⟨c, r2, hq, hc, ht2⟩
    · rw [hq, procAtom_nil]
      try dsimp only
      exact ⟨sa, addDepsLoop_nil w fuel _⟩
    · have hqe : endsWS (skipWS p) = true := by
        rcases skipWS_ends p hws with h | h
        · rw [hq] at h; exact absurd h (by simp)
        · exact h
      have hends : endsWS (procAtom w (skipWS p)).2.2 = true := procAtom_rest_ends w _ hqe
      have hlen2 : (procAtom w (skipWS p)).2.2.length < fuel := by
        have h1 : (procAtom w (skipWS p)).2.2.length < (skipWS p).length := by
          rw [hq]; exact procAtom_rest_lt w c r2 hc ht2
        have h2 := skipWS_length p
        omega
      exact ih _ _ hlen2 hends

/-! ## Lemmas: symbolic single-atom computation -/

theorem takeName_append (nm r : List Char) (hnm : ∀ c ∈ nm, isNameStop c = false)
    (hr : r = [] ∨ ∃ c r2, r = c :: r2 ∧ isNameStop c = true) :
    takeName (nm ++ r) = (nm, r) := by
  induction nm with
  | nil =>
    rcases hr with rfl | ⟨c, r2, rfl, hc⟩
    · rfl
    · simp [takeName, hc]
  | cons a nm ih =>
    have ha : isNameStop a = false := hnm a (by simp)
    simp only [List.cons_append, takeName, ha, Bool.false_eq_true, if_false, List.append_eq]
    rw [ih (fun c hc => hnm c (by simp [hc]))]

theorem takeFlags_append (ops r : List Char)
    (hops : ∀ c ∈ ops, c = '<' ∨ c = '>' ∨ c = '=')
    (hr : ∀ c, r.head? = some c → c ≠ '<' ∧ c ≠ '>' ∧ c ≠ '=') :
    takeFlags (ops ++ r) = (opsFlags ops, r) := by
  induction ops with
  | nil =>
    cases r with
    | nil => rfl
    | cons c r2 =>
      obtain ⟨h1, h2, h3⟩ := hr c rfl
      simp [takeFlags, opsFlags, h1, h2, h3]
  | cons c ops ih =>
    have ih2 := ih (fun c hc => hops c (by simp [hc]))
    rcases hops c (by simp) with h | h | h <;> subst h <;>
      simp [takeFlags, opsFlags, ih2]

theorem takeVer_all (v : List Char) (hv : ∀ c ∈ v, c ≠ ' ' ∧ c ≠ '\t') :
    takeVer v = (v, []) := by
  induction v with
  | nil => rfl
  | cons c r ih =>
    obtain ⟨h1, h2⟩ := hv c (by simp)
    have hno : ¬(c = ' ' ∨ c = '\t') := by tauto
    simp [takeVer, hno, ih (fun c hc => hv c (by simp [hc]))]

theorem opsFlags_ne_zero (ops : List Char) (h : ops ≠ [])
    (hops : ∀ c ∈ ops, c = '<' ∨ c = '>' ∨ c = '=') : opsFlags ops ≠ 0 := by
  cases ops with
  | nil => exact absurd rfl h
  | cons c r =>
    rcases hops c (by simp) with h1 | h1 | h1 <;> subst h1 <;>
      · simp only [opsFlags]
        exact or_ne_zero_of_right _ _ (by decide)

theorem skipWS_no_ws (p : List Char) (h : ∀ c, p.head? = some c → c ≠ ' ' ∧ c ≠ '\t') :
    skipWS p = p := by
  cases p with
  | nil => rfl
  | cons c r =>
    obtain ⟨h1, h2⟩ := h c rfl
    simp [skipWS, h1, h2]

/-! ## Claim theorems: dependency expression parser -/

/-- C6: parsing the dependency line `"foo>=1.2 bar baz<3"` with kind require
appends exactly the three relations `foo >= 1.2` (REL_GT|REL_EQ), bare
`bar`, and `baz < 3` (REL_LT) to the requires list in source order (and
nothing to conflicts); with a leading `!` on the first atom, that atom's
relation goes to the conflicts list instead while the remaining two still go
to requires. -/
theorem apk_c6 :
    (add_deps What.req "foo>=1.2 bar baz<3".toList initPkg).requires =
      [Dep.rel (Dep.str "foo".toList) (Dep.str "1.2".toList) (REL_GT ||| REL_EQ),
       Dep.str "bar".toList,
       Dep.rel (Dep.str "baz".toList) (Dep.str "3".toList) REL_LT] ∧
    (add_deps What.req "foo>=1.2 bar baz<3".toList initPkg).conflicts = [] ∧
    (add_deps What.req "!foo>=1.2 bar baz<3".toList initPkg).conflicts =
      [Dep.rel (Dep.str "foo".toList) (Dep.str "1.2".toList) (REL_GT ||| REL_EQ)] ∧
    (add_deps What.req "!foo>=1.2 bar baz<3".toList initPkg).requires =
      [Dep.str "bar".toList,
       Dep.rel (Dep.str "baz".toList) (Dep.str "3".toList) REL_LT] := by
  decide

/-- C3 counterexample: for the atom `a~1` the code produces the version text
`"~1"` — the `~` character is part of the version — not `"1"` as the claim
states. -/
theorem apk_c3_counterexample :
    (add_deps What.req "a~1".toList initPkg).requires =
      [Dep.rel (Dep.str ['a']) (Dep.str ['~', '1']) REL_EQ] ∧
    (add_deps What.req "a~1".toList initPkg).requires ≠
      [Dep.rel (Dep.str ['a']) (Dep.str ['1']) REL_EQ] := by
  decide

/-- C3 as amended: after a run of `<`,`>`,`=` operator characters the
version is exactly the text following the run up to whitespace; but when
the operator is `~` (mapped to the REL_EQ flag) the `~` character is not
consumed, so the version text of the resulting compound relation starts
with the `~` itself. -/
theorem apk_c3_amended (nm vr ops : List Char)
    (hnm : ∀ c ∈ nm, isNameStop c = false ∧ c ≠ '!')
    (hvr : ∀ c ∈ vr, c ≠ ' ' ∧ c ≠ '\t')
    (hvrh : ∀ c, vr.head? = some c → c ≠ '<' ∧ c ≠ '>' ∧ c ≠ '=' ∧ c ≠ '~')
    (hops : ops ≠ []) (hopsc : ∀ c ∈ ops, c = '<' ∨ c = '>' ∨ c = '=') :
    (add_deps What.req (nm ++ ops ++ vr) initPkg).requires =
      [Dep.rel (Dep.str nm) (Dep.str vr) (opsFlags ops)] ∧
    (add_deps What.req (nm ++ '~' :: vr) initPkg).requires =
      [Dep.rel (Dep.str nm) (Dep.str ('~' :: vr)) REL_EQ] := by
  constructor
  · have hp : nm ++ ops ++ vr ≠ [] := by
      intro h
      rw [List.append_assoc] at h
      obtain ⟨-, h2⟩ := List.append_eq_nil.mp h
      exact hops (List.append_eq_nil.mp h2).1
    have hhead : ¬((nm ++ (ops ++ vr)).head? = some '!') := by
      intro hh
      cases nm with
      | nil =>
        cases ops with
        | nil => exact hops rfl
        | cons o os =>
          simp at hh
          rcases hopsc o (by simp) with h | h | h <;> rw [hh] at h <;> exact absurd h (by decide)
      | cons a nms =>
        simp at hh
        exact (hnm a (by simp)).2 hh
    have hskip : skipWS (nm ++ ops ++ vr) = nm ++ ops ++ vr := by
      apply skipWS_no_ws
      intro c hc
      cases nm with
      | nil =>
        cases ops with
        | nil => exact absurd rfl hops
        | cons o os =>
          simp at hc
          subst hc
          rcases hopsc o (by simp) with h | h | h <;> subst h <;> exact ⟨by decide, by decide⟩
      | cons a nms =>
        simp at hc
        subst hc
        have hstop := (hnm a (by simp)).1
        constructor
        · intro e; subst e; simp [isNameStop] at hstop
        · intro e; subst e; simp [isNameStop] at hstop
    have hatom : procAtom What.req (nm ++ ops ++ vr) =
        (What.req, Dep.rel (Dep.str nm) (Dep.str vr) (opsFlags ops), []) := by
      rw [List.append_assoc]
      simp only [procAtom, true_and, eq_self_iff_true]
      rw [if_neg hhead]
      try dsimp only
      have hr1 : ops ++ vr = [] ∨ ∃ c r2, ops ++ vr = c :: r2 ∧ isNameStop c = true := by
        cases ops with
        | nil => exact absurd rfl hops
        | cons o os =>
          right
          refine ⟨o, os ++ vr, by simp, ?_⟩
          rcases hopsc o (by simp) with h | h | h <;> subst h <;> decide
      rw [takeName_append nm (ops ++ vr) (fun c hc => (hnm c hc).1) hr1]
      try dsimp only
      rw [takeFlags_append ops vr hopsc
        (fun c hc => ⟨(hvrh c hc).1, (hvrh c hc).2.1, (hvrh c hc).2.2.1⟩)]
      try dsimp only
      have hpk : ¬(vr.head? = some '~') := fun hh => (hvrh '~' hh).2.2.2 rfl
      rw [if_neg hpk, if_pos (opsFlags_ne_zero ops hops hopsc)]
      try dsimp only
      rw [takeVer_all vr hvr]
      try rfl
    have hloop : addDepsLoop What.req ((nm ++ ops ++ vr).length + 1) (nm ++ ops ++ vr)
        (initPkg, none) =
        appendDepFull What.req (Dep.rel (Dep.str nm) (Dep.str vr) (opsFlags ops))
          (initPkg, none) := by
      simp only [addDepsLoop]
      rw [if_neg hp, hskip, hatom]
      try dsimp only
      exact addDepsLoop_nil _ _ _
    simp only [add_deps, hloop, appendDepFull]
    simp [initPkg]
  · have hp : nm ++ '~' :: vr ≠ [] := by simp
    have hhead : ¬((nm ++ '~' :: vr).head? = some '!') := by
      intro hh
      cases nm with
      | nil => simp at hh
      | cons a nms =>
        simp at hh
        exact (hnm a (by simp)).2 hh
    have hskip : skipWS (nm ++ '~' :: vr) = nm ++ '~' :: vr := by
      apply skipWS_no_ws
      intro c hc
      cases nm with
      | nil =>
        simp at hc
        subst hc
        exact ⟨by decide, by decide⟩
      | cons a nms =>
        simp at hc
        subst hc
        have hstop := (hnm a (by simp)).1
        constructor
        · intro e; subst e; simp [isNameStop] at hstop
        · intro e; subst e; simp [isNameStop] at hstop
    have hatom : procAtom What.req (nm ++ '~' :: vr) =
        (What.req, Dep.rel (Dep.str nm) (Dep.str ('~' :: vr)) REL_EQ, []) := by
      simp only [procAtom, true_and, eq_self_iff_true]
      rw [if_neg hhead]
      try dsimp only
      rw [takeName_append nm ('~' :: vr) (fun c hc => (hnm c hc).1)
        (Or.inr ⟨'~', vr, rfl, by decide⟩)]
      try dsimp only
      rw [takeFlags_cons_other '~' vr (by decide) (by decide) (by decide)]
      try dsimp only
      have hpk : (('~' :: vr).head? = some '~') := rfl
      rw [if_pos hpk, if_pos (show (0 : Nat) ||| REL_EQ ≠ 0 from by decide)]
      try dsimp only
      have hv2 : ∀ c ∈ ('~' :: vr), c ≠ ' ' ∧ c ≠ '\t' := by
        intro c hc
        rcases List.mem_cons.mp hc with rfl | hc2
        · exact ⟨by decide, by decide⟩
        · exact hvr c hc2
      rw [takeVer_all ('~' :: vr) hv2]
      try rfl
    have hloop : addDepsLoop What.req ((nm ++ '~' :: vr).length + 1) (nm ++ '~' :: vr)
        (initPkg, none) =
        appendDepFull What.req (Dep.rel (Dep.str nm) (Dep.str ('~' :: vr)) REL_EQ)
          (initPkg, none) := by
      simp only [addDepsLoop]
      rw [if_neg hp, hskip, hatom]
      try dsimp only
      exact addDepsLoop_nil _ _ _
    simp only [add_deps, hloop, appendDepFull]
    simp [initPkg]

/-- C3 amended witness at the concrete inputs `a<=1` and `a~1`. -/
theorem apk_c3_amended_witness :
    (add_deps What.req ("a".toList ++ "<=".toList ++ "1".toList) initPkg).requires =
      [Dep.rel (Dep.str "a".toList) (Dep.str "1".toList) (opsFlags "<=".toList)] ∧
    (add_deps What.req ("a".toList ++ '~' :: "1".toList) initPkg).requires =
      [Dep.rel (Dep.str "a".toList) (Dep.str ('~' :: "1".toList)) REL_EQ] :=
  apk_c3_amended "a".toList "1".toList "<=".toList (by decide) (by decide) (by decide)
    (by decide) (by decide)

/-- C10: a dependency line with trailing blanks makes the loop process one
extra atom after the last real one, appending a relation whose name is the
interned empty string to the target list of the caller's kind; for the
supplement kind the empty-name id is AND-combined into the single compound
supplements relation. -/
theorem apk_c10 (p : List Char) (st : PkgState) (h : endsWS p = true) :
    (∃ l, (add_deps What.prov p st).provides = l ++ [Dep.str []]) ∧
    (∃ l, (add_deps What.req p st).requires = l ++ [Dep.str []]) ∧
    (∃ l, (add_deps What.con p st).conflicts = l ++ [Dep.str []]) ∧
    (∃ d, (add_deps What.supp p st).supplements = st.supplements ++ [d] ∧
      (d = Dep.str [] ∨ ∃ d2, d = Dep.rel (Dep.str []) d2 REL_AND)) := by
  have hlen : p.length < p.length + 1 := by omega
  refine ⟨?_, ?_, ?_, ?_⟩
  · obtain ⟨⟨st2, acc2⟩, heq⟩ :=
      addDepsLoop_trailing What.prov (p.length + 1) p (st, none) hlen h
    refine ⟨st2.provides, ?_⟩
    cases acc2 <;> simp [add_deps, heq, appendDepFull]
  · obtain ⟨⟨st2, acc2⟩, heq⟩ :=
      addDepsLoop_trailing What.req (p.length + 1) p (st, none) hlen h
    refine ⟨st2.requires, ?_⟩
    cases acc2 <;> simp [add_deps, heq, appendDepFull]
  · obtain ⟨⟨st2, acc2⟩, heq⟩ :=
      addDepsLoop_trailing What.con (p.length + 1) p (st, none) hlen h
    refine ⟨st2.conflicts, ?_⟩
    cases acc2 <;> simp [add_deps, heq, appendDepFull]
  · obtain ⟨⟨st2, acc2⟩, heq⟩ :=
      addDepsLoop_trailing What.supp (p.length + 1) p (st, none) hlen h
    have hfst := addDepsLoop_supp_fst (p.length + 1) p (st, none)
    rw [heq] at hfst
    simp only [appendDepFull] at hfst
    cases acc2 with
    | none =>
      refine ⟨Dep.str [], ?_, Or.inl rfl⟩
      simp [add_deps, heq, appendDepFull, hfst]
    | some d2 =>
      refine ⟨Dep.rel (Dep.str []) d2 REL_AND, ?_, Or.inr ⟨d2, rfl⟩⟩
      simp [add_deps, heq, appendDepFull, hfst]

/-- C10 witness at the concrete line `"foo "` for the require kind. -/
theorem apk_c10_witness :
    ∃ l, (add_deps What.req "foo ".toList initPkg).requires = l ++ [Dep.str []] :=
  (apk_c10 "foo ".toList initPkg (by decide)).2.1

/-! ## Lemmas: checksum-string decoder -/

theorem apkDecodeBody_step_none (xpos i v : Nat) (c : Char) (cs : List Char)
    (hd : decChar xpos i c = none) :
    apkDecodeBody xpos i v (c :: cs) = none := by
  simp [apkDecodeBody, hd]

theorem apkDecodeBody_step_mid (xpos i v : Nat) (c : Char) (cs : List Char) (x : Nat)
    (hd : decChar xpos i c = some x) (hmod : ¬(i % 4 = 3)) :
    apkDecodeBody xpos i v (c :: cs) = apkDecodeBody xpos (i + 1) ((v <<< 6) ||| x) cs := by
  simp [apkDecodeBody, hd, hmod]

theorem apkDecodeBody_step_last_none (xpos i v : Nat) (c : Char) (cs : List Char) (x : Nat)
    (hd : decChar xpos i c = some x) (hmod : i % 4 = 3)
    (hrec : apkDecodeBody xpos (i + 1) 0 cs = none) :
    apkDecodeBody xpos i v (c :: cs) = none := by
  simp [apkDecodeBody, hd, hmod, hrec]

theorem apkDecodeBody_step_last_some (xpos i v : Nat) (c : Char) (cs : List Char)
    (x : Nat) (bs2 : List Nat) (hd : decChar xpos i c = some x) (hmod : i % 4 = 3)
    (hrec : apkDecodeBody xpos (i + 1) 0 cs = some bs2) :
    apkDecodeBody xpos i v (c :: cs) =
      some ((((v <<< 6) ||| x) >>> 16) % 256 :: (((v <<< 6) ||| x) >>> 8) % 256 ::
        ((if i ≠ xpos then [((v <<< 6) ||| x) % 256] else []) ++ bs2)) := by
  simp [apkDecodeBody, hd, hmod, hrec]

theorem apkDecodeBody_length (xpos : Nat) (hx : xpos % 4 = 3) :
    ∀ (n : Nat) (body : List Char) (i v : Nat) (bs : List Nat), body.length ≤ n →
      i % 4 = 0 → (i + body.length) % 4 = 0 →
      apkDecodeBody xpos i v body = some bs →
      bs.length = 3 * (body.length / 4) -
        (if i ≤ xpos ∧ xpos < i + body.length then 1 else 0) := by
  intro n
  induction n with
  | zero =>
    intro body i v bs hb hi hs hdec
    have hnil : body = [] := List.length_eq_zero.mp (by omega)
    subst hnil
    simp only [apkDecodeBody, Option.some.injEq] at hdec
    subst hdec
    have hno : ¬(i ≤ xpos ∧ xpos < i + List.length ([] : List Char)) := by
      simp only [List.length_nil]
      omega
    simp [hno]
  | succ n ih =>
    intro body i v bs hb hi hs hdec
    cases body with
    | nil =>
      simp only [apkDecodeBody, Option.some.injEq] at hdec
      subst hdec
      have hno : ¬(i ≤ xpos ∧ xpos < i + List.length ([] : List Char)) := by
        simp only [List.length_nil]
        omega
      simp [hno]
    | cons c0 t0 =>
      cases t0 with
      | nil => simp only [List.length_cons, List.length_nil] at hs; omega
      | cons c1 t1 =>
        cases t1 with
        | nil => simp only [List.length_cons, List.length_nil] at hs; omega
        | cons c2 t2 =>
          cases t2 with
          | nil => simp only [List.length_cons, List.length_nil] at hs; omega
          | cons c3 t3 =>
            have hL : t3.length % 4 = 0 := by
              simp only [List.length_cons] at hs
              omega
            cases hd0 : decChar xpos i c0 with
            | none => rw [apkDecodeBody_step_none _ _ _ _ _ hd0] at hdec; exact absurd hdec (by simp)
            | some x0 =>
            rw [apkDecodeBody_step_mid _ _ _ _ _ _ hd0 (by omega)] at hdec
            cases hd1 : decChar xpos (i + 1) c1 with
            | none => rw [apkDecodeBody_step_none _ _ _ _ _ hd1] at hdec; exact absurd hdec (by simp)
            | some x1 =>
            rw [apkDecodeBody_step_mid _ _ _ _ _ _ hd1 (by omega)] at hdec
            cases hd2 : decChar xpos (i + 1 + 1) c2 with
            | none => rw [apkDecodeBody_step_none _ _ _ _ _ hd2] at hdec; exact absurd hdec (by simp)
            | some x2 =>
            rw [apkDecodeBody_step_mid _ _ _ _ _ _ hd2 (by omega)] at hdec
            cases hd3 : decChar xpos (i + 1 + 1 + 1) c3 with
            | none => rw [apkDecodeBody_step_none _ _ _ _ _ hd3] at hdec; exact absurd hdec (by simp)
            | some x3 =>
            cases hrec : apkDecodeBody xpos (i + 1 + 1 + 1 + 1) 0 t3 with
            | none =>
              rw [apkDecodeBody_step_last_none _ _ _ _ _ _ hd3 (by omega) hrec] at hdec
              exact absurd hdec (by simp)
            | some bs2 =>
              rw [apkDecodeBody_step_last_some _ _ _ _ _ _ _ hd3 (by omega) hrec] at hdec
              have hb2 := ih t3 (i + 1 + 1 + 1 + 1) 0 bs2
                (by simp only [List.length_cons] at hb; omega) (by omega) (by omega) hrec
              injection hdec with hh
              subst hh
              simp only [List.length_cons, List.length_append]
              split_ifs at hb2 ⊢ <;>
                simp only [List.length_cons, List.length_nil] at * <;>
                omega

/-! ## Claim theorems: checksum-string decoder -/

/-- C1 counterexample: a 46-character token whose tag is `a2` — it does not
begin with `Q` — still decodes and writes a 32-byte SHA-256 checksum,
because the second disjunct of the gate (`idstr[1] == '2' && l == 46`) never
tests the first character. -/
theorem apk_c1_counterexample :
    apk_add_hdrid ('a' :: '2' :: (List.replicate 43 'A' ++ ['='])) =
      some (ChkType.sha256, List.replicate 32 0) ∧
    ('a' :: '2' :: (List.replicate 43 'A' ++ ['='])).get? 0 ≠ some 'Q' ∧
    apk_add_hdrid ('Q' :: '1' :: List.replicate 44 'A') =
      some (ChkType.sha256, List.replicate 32 0) ∧
    ('Q' :: '1' :: List.replicate 44 'A').length ≠ 30 := by
  refine ⟨by decide, by decide, by decide, by decide⟩

/-- C1 as amended: a successful write happens only for a token that either
has tag `Q1` and total length 30 or 46, or has `'2'` as its second character
(any first character) and total length 46.  A length-30 token yields a
20-byte digest tagged SHA-1; every accepted length-46 token — including the
`Q1` form — yields a 32-byte digest tagged SHA-256. -/
theorem apk_c1_amended (tok : List Char) (r : ChkType × List Nat)
    (h : apk_add_hdrid tok = some r) :
    ((tok.get? 0 = some 'Q' ∧ tok.get? 1 = some '1' ∧ (tok.length = 30 ∨ tok.length = 46)) ∨
      (tok.get? 1 = some '2' ∧ tok.length = 46)) ∧
    (tok.length = 30 → r.1 = ChkType.sha1 ∧ r.2.length = 20) ∧
    (tok.length = 46 → r.1 = ChkType.sha256 ∧ r.2.length = 32) := by
  simp only [apk_add_hdrid] at h
  by_cases hg : ((tok.length = 30 ∨ tok.length = 46) ∧ tok.get? 0 = some 'Q' ∧
      tok.get? 1 = some '1') ∨ (tok.get? 1 = some '2' ∧ tok.length = 46)
  case neg => rw [if_neg hg] at h; exact absurd h (by simp)
  case pos =>
  rw [if_pos hg] at h
  by_cases h2c : tok.get? 1 = some '2'
  · rw [if_pos h2c] at h
    have h46 : tok.length = 46 := by
      rcases hg with ⟨-, -, h1⟩ | ⟨-, h46⟩
      · rw [h1] at h2c; simp at h2c
      · exact h46
    have hblen : (tok.drop 2).length = 44 := by
      simp only [List.length_drop, h46]
    cases hdec : apkDecodeBody 43 0 0 (tok.drop 2) with
    | none => rw [hdec] at h; exact absurd h (by simp)
    | some bs =>
      rw [hdec] at h
      simp only [Option.some.injEq] at h
      have hbs := apkDecodeBody_length 43 (by decide) ((tok.drop 2).length) (tok.drop 2)
        0 0 bs (le_refl _) (by decide) (by rw [hblen]) hdec
      rw [hblen] at hbs
      rw [if_pos (by omega : 0 ≤ 43 ∧ 43 < 0 + 44)] at hbs
      norm_num at hbs
      subst h
      refine ⟨Or.inr ⟨h2c, h46⟩, fun h30 => by omega, fun _ => ?_⟩
      constructor
      · have : ¬(tok.length - 2 = 28) := by omega
        simp [this]
      · simpa using hbs
  · rw [if_neg h2c] at h
    have hCore : (tok.length = 30 ∨ tok.length = 46) ∧ tok.get? 0 = some 'Q' ∧
        tok.get? 1 = some '1' := by
      rcases hg with hg1 | ⟨hc, -⟩
      · exact hg1
      · exact absurd hc h2c
    cases hdec : apkDecodeBody 27 0 0 (tok.drop 2) with
    | none => rw [hdec] at h; exact absurd h (by simp)
    | some bs =>
      rw [hdec] at h
      simp only [Option.some.injEq] at h
      subst h
      refine ⟨Or.inl ⟨hCore.2.1, hCore.2.2, hCore.1⟩, fun h30 => ?_, fun h46 => ?_⟩
      · have hblen : (tok.drop 2).length = 28 := by
          simp only [List.length_drop, h30]
        have hbs := apkDecodeBody_length 27 (by decide) ((tok.drop 2).length) (tok.drop 2)
          0 0 bs (le_refl _) (by decide) (by rw [hblen]) hdec
        rw [hblen] at hbs
        rw [if_pos (by omega : 0 ≤ 27 ∧ 27 < 0 + 28)] at hbs
        norm_num at hbs
        constructor
        · have h28 : tok.length - 2 = 28 := by omega
          simp [h28]
        · simpa using hbs
      · have hblen : (tok.drop 2).length = 44 := by
          simp only [List.length_drop, h46]
        have hbs := apkDecodeBody_length 27 (by decide) ((tok.drop 2).length) (tok.drop 2)
          0 0 bs (le_refl _) (by decide) (by rw [hblen]) hdec
        rw [hblen] at hbs
        rw [if_pos (by omega : 0 ≤ 27 ∧ 27 < 0 + 44)] at hbs
        norm_num at hbs
        constructor
        · have : ¬(tok.length - 2 = 28) := by omega
          simp [this]
        · simpa using hbs

/-- C1 amended witness at a concrete accepted `Q1` token of length 30. -/
theorem apk_c1_amended_witness :
    apk_add_hdrid ('Q' :: '1' :: (List.replicate 27 'A' ++ ['='])) =
      some (ChkType.sha1, List.replicate 20 0) ∧
    (ChkType.sha1, List.replicate 20 (0 : Nat)).1 = ChkType.sha1 ∧
      (ChkType.sha1, List.replicate 20 (0 : Nat)).2.length = 20 :=
  ⟨by decide,
    (apk_c1_amended ('Q' :: '1' :: (List.replicate 27 'A' ++ ['=']))
        (ChkType.sha1, List.replicate 20 0) (by decide)).2.1 (by decide)⟩

/-! ## Lemmas: archive-dialect line dispatch -/

theorem getLast?_append_ne (l x : List Char) (c : Char) (h1 : l.getLast? ≠ some c)
    (h2 : x.getLast? ≠ some c) : (l ++ x).getLast? ≠ some c := by
  by_cases hxe : x = []
  · subst hxe; simpa using h1
  · rw [List.getLast?_append_of_ne_nil l hxe]; exact h2

theorem stripNL_id (l : List Char) (h : l.getLast? ≠ some '\n') : stripNL l = l := by
  simp [stripNL, h]

theorem stripNL_cons2 (a b : Char) (x : List Char) (hb : b ≠ '\n')
    (hx : x.getLast? ≠ some '\n') : stripNL (a :: b :: x) = a :: b :: x := by
  apply stripNL_id
  by_cases hxe : x = []
  · subst hxe; simpa [List.getLast?] using hb
  · rw [show a :: b :: x = [a, b] ++ x from rfl, List.getLast?_append_of_ne_nil _ hxe]
    exact hx

theorem dropPfx_self (p x : List Char) : dropPfx p (p ++ x) = some x := by
  induction p with
  | nil => simp [dropPfx]
  | cons a pr ih => simp [dropPfx, ih]

theorem pkginfo_line_pkgname (st : PkgState) (x : List Char) (hx : x.getLast? ≠ some '\n') :
    pkginfo_line st ("pkgname = ".toList ++ x) = { st with name := some x } := by
  have hstrip : stripNL ("pkgname = ".toList ++ x) = "pkgname = ".toList ++ x :=
    stripNL_id _ (getLast?_append_ne _ _ _ (by decide) hx)
  have hh : ("pkgname = ".toList ++ x).head? = some 'p' := rfl
  have hne : ¬("pkgname = ".toList ++ x = [] ∨
      ("pkgname = ".toList ++ x).head? = some '#') := by
    rintro (h | h)
    · rw [h] at hh; simp at hh
    · rw [hh] at h; simp at h
  simp only [pkginfo_line, hstrip]
  rw [if_neg hne, dropPfx_self]

theorem pkginfo_line_origin (st : PkgState) (x : List Char) (hx : x.getLast? ≠ some '\n') :
    pkginfo_line st ("origin = ".toList ++ x) = setOrigin x st := by
  have hstrip : stripNL ("origin = ".toList ++ x) = "origin = ".toList ++ x :=
    stripNL_id _ (getLast?_append_ne _ _ _ (by decide) hx)
  have hh : ("origin = ".toList ++ x).head? = some 'o' := rfl
  have hne : ¬("origin = ".toList ++ x = [] ∨
      ("origin = ".toList ++ x).head? = some '#') := by
    rintro (h | h)
    · rw [h] at hh; simp at hh
    · rw [hh] at h; simp at h
  simp only [pkginfo_line, hstrip]
  rw [if_neg hne]
  rw [show dropPfx "pkgname = ".toList ("origin = ".toList ++ x) = none from rfl]
  rw [show dropPfx "pkgver = ".toList ("origin = ".toList ++ x) = none from rfl]
  rw [show dropPfx "pkgdesc = ".toList ("origin = ".toList ++ x) = none from rfl]
  rw [show dropPfx "url = ".toList ("origin = ".toList ++ x) = none from rfl]
  rw [show dropPfx "builddate = ".toList ("origin = ".toList ++ x) = none from rfl]
  rw [show dropPfx "packager = ".toList ("origin = ".toList ++ x) = none from rfl]
  rw [show dropPfx "size = ".toList ("origin = ".toList ++ x) = none from rfl]
  rw [show dropPfx "arch = ".toList ("origin = ".toList ++ x) = none from rfl]
  rw [show dropPfx "license = ".toList ("origin = ".toList ++ x) = none from rfl]
  rw [dropPfx_self]

theorem apk_pkg_of_block_eq (lines : List (List Char)) :
    apk_pkg_of_block lines =
      match (lines.foldl pkginfo_line initPkg).name with
      | none => ApkPkgResult.errNoName
      | some n => ApkPkgResult.ok (finalizeCommon (lines.foldl pkginfo_line initPkg) n) := by
  simp [apk_pkg_of_block, repo_add_apk_pkg, apkPkgEntryLoop]

/-! ## Claim theorems: source-name (origin) rule -/

/-- C5 counterexample: a metadata block that contains both `pkgname = a` and
`origin = a`, but with the origin line first, stores an id-valued
source-name, not the valueless marker, so the claim as stated (quantified
over blocks merely containing the two lines) fails. -/
theorem apk_c5_counterexample :
    (match apk_pkg_of_block ["origin = a".toList, "pkgname = a".toList] with
     | ApkPkgResult.ok p => lastAttr p.attrs AttrKey.sourcename
     | _ => none) = some (AttrVal.idv "a".toList) ∧
    some (AttrVal.idv "a".toList) ≠ some AttrVal.void := by
  exact ⟨by decide, by decide⟩

/-- C5 as amended: in the archive dialect, with the `pkgname = x` line
preceding the `origin` line, a block with `origin = x` stores the valueless
source-name marker, a block with `origin = y` for `y ≠ x` stores the
id-valued source-name `y`, and a block with no origin line at all gets the
valueless marker at finalize time. -/
theorem apk_c5_amended (x y : List Char) (hx : x.getLast? ≠ some '\n')
    (hy : y.getLast? ≠ some '\n') (hxy : y ≠ x) :
    (∃ p, apk_pkg_of_block ["pkgname = ".toList ++ x, "origin = ".toList ++ x] =
        ApkPkgResult.ok p ∧ lastAttr p.attrs AttrKey.sourcename = some AttrVal.void) ∧
    (∃ p, apk_pkg_of_block ["pkgname = ".toList ++ x, "origin = ".toList ++ y] =
        ApkPkgResult.ok p ∧ lastAttr p.attrs AttrKey.sourcename = some (AttrVal.idv y)) ∧
    (∃ p, apk_pkg_of_block ["pkgname = ".toList ++ x] =
        ApkPkgResult.ok p ∧ lastAttr p.attrs AttrKey.sourcename = some AttrVal.void) := by
  refine ⟨⟨⟨x, [], "noarch".toList, [Dep.rel (Dep.str x) (Dep.str []) REL_EQ], [], [], [],
      [(AttrKey.sourcename, AttrVal.void)]⟩, ?_, ?_⟩,
    ⟨⟨x, [], "noarch".toList, [Dep.rel (Dep.str x) (Dep.str []) REL_EQ], [], [], [],
      [(AttrKey.sourcename, AttrVal.idv y)]⟩, ?_, ?_⟩,
    ⟨⟨x, [], "noarch".toList, [Dep.rel (Dep.str x) (Dep.str []) REL_EQ], [], [], [],
      [(AttrKey.sourcename, AttrVal.void)]⟩, ?_, ?_⟩⟩
  · rw [apk_pkg_of_block_eq]
    simp only [List.foldl, pkginfo_line_pkgname initPkg x hx,
      pkginfo_line_origin _ x hx]
    simp [setOrigin, finalizeCommon, initPkg]
  · simp [lastAttr]
  · rw [apk_pkg_of_block_eq]
    simp only [List.foldl, pkginfo_line_pkgname initPkg x hx,
      pkginfo_line_origin _ y hy]
    simp [setOrigin, hxy, finalizeCommon, initPkg]
  · simp [lastAttr]
  · rw [apk_pkg_of_block_eq]
    simp only [List.foldl, pkginfo_line_pkgname initPkg x hx]
    simp [finalizeCommon, initPkg]
  · simp [lastAttr]

/-- C5 amended witness at `x = "a"`, `y = "b"`. -/
theorem apk_c5_amended_witness :
    ∃ p, apk_pkg_of_block ["pkgname = ".toList ++ "a".toList,
        "origin = ".toList ++ "a".toList] = ApkPkgResult.ok p ∧
      lastAttr p.attrs AttrKey.sourcename = some AttrVal.void :=
  (apk_c5_amended "a".toList "b".toList (by decide) (by decide) (by decide)).1

/-- C9: the valueless-source-name rule is order dependent — in both
dialects, when the origin line precedes the name line the equality test
compares against the not-yet-set name, so the source-name is stored as an
id-valued attribute even though it is textually identical to the eventual
package name. -/
theorem apk_c9 (x : List Char) (hx : x.getLast? ≠ some '\n') :
    (∃ p, apk_pkg_of_block ["origin = ".toList ++ x, "pkgname = ".toList ++ x] =
        ApkPkgResult.ok p ∧ lastAttr p.attrs AttrKey.sourcename = some (AttrVal.idv x)) ∧
    (∃ p, apk_process_index [('o' :: ':' :: x), ('P' :: ':' :: x)] = [p] ∧
        lastAttr p.attrs AttrKey.sourcename = some (AttrVal.idv x)) := by
  refine ⟨⟨⟨x, [], "noarch".toList, [Dep.rel (Dep.str x) (Dep.str []) REL_EQ], [], [], [],
      [(AttrKey.sourcename, AttrVal.idv x)]⟩, ?_, ?_⟩,
    ⟨⟨x, [], "noarch".toList, [Dep.rel (Dep.str x) (Dep.str []) REL_EQ], [], [], [],
      [(AttrKey.sourcename, AttrVal.idv x)]⟩, ?_, ?_⟩⟩
  · rw [apk_pkg_of_block_eq]
    simp only [List.foldl, pkginfo_line_origin initPkg x hx]
    rw [show setOrigin x initPkg =
      { initPkg with attrs := [(AttrKey.sourcename, AttrVal.idv x)], haveorigin := true } from
      by simp [setOrigin, initPkg]]
    rw [pkginfo_line_pkgname _ x hx]
    simp [finalizeCommon, initPkg]
  · simp [lastAttr]
  · simp only [apk_process_index, apkIdxLoop]
    rw [stripNL_cons2 'o' ':' x (by decide) hx, stripNL_cons2 'P' ':' x (by decide) hx]
    simp [idxDispatch, setOrigin, initPkg, finalizeIdx, finalizeCommon]
    have h2 : ¬(x.length + 1 + 1 < 2) := by omega
    simp [h2]
  · simp [lastAttr]

/-- C9 witness at `x = "a"`. -/
theorem apk_c9_witness :
    ∃ p, apk_pkg_of_block ["origin = ".toList ++ "a".toList,
        "pkgname = ".toList ++ "a".toList] = ApkPkgResult.ok p ∧
      lastAttr p.attrs AttrKey.sourcename = some (AttrVal.idv "a".toList) :=
  (apk_c9 "a".toList (by decide)).1

/-! ## Claim theorems: self-provides invariant -/

theorem finalizeCommon_self (st : PkgState) (n : List Char) :
    Dep.rel (Dep.str (finalizeCommon st n).name) (Dep.str (finalizeCommon st n).evr) REL_EQ ∈
      (finalizeCommon st n).provides := by
  simp [finalizeCommon]

theorem finalizeIdx_self (st : PkgState) (p : FinalPkg) (h : p ∈ finalizeIdx st) :
    Dep.rel (Dep.str p.name) (Dep.str p.evr) REL_EQ ∈ p.provides := by
  unfold finalizeIdx at h
  cases hn : st.name with
  | none => rw [hn] at h; simp at h
  | some n =>
    rw [hn] at h
    simp at h
    subst h
    exact finalizeCommon_self st n

theorem apkIdxLoop_self (lines : List (List Char)) :
    ∀ (s : Option PkgState) (acc : List FinalPkg), ∀ p ∈ apkIdxLoop lines s acc,
      p ∈ acc ∨ Dep.rel (Dep.str p.name) (Dep.str p.evr) REL_EQ ∈ p.provides := by
  induction lines with
  | nil =>
    intro s acc p hp
    cases s with
    | none => exact Or.inl hp
    | some st =>
      simp only [apkIdxLoop] at hp
      rcases List.mem_append.mp hp with h | h
      · exact Or.inl h
      · exact Or.inr (finalizeIdx_self st p h)
  | cons line rest ih =>
    intro s acc p hp
    simp only [apkIdxLoop] at hp
    cases s with
    | none =>
      dsimp only at hp
      by_cases hnil : line = []
      · rw [if_pos hnil] at hp
        exact Or.inl hp
      · rw [if_neg hnil] at hp
        by_cases hd : (stripNL line).length < 2 ∨ (stripNL line).get? 1 ≠ some ':'
        · rw [if_pos hd] at hp
          exact ih none acc p hp
        · rw [if_neg hd] at hp
          exact ih _ acc p hp
    | some st =>
      dsimp only at hp
      by_cases hbl : line = [] ∨ line = ['\n']
      · rw [if_pos hbl] at hp
        dsimp only at hp
        by_cases hnil : line = []
        · rw [if_pos hnil] at hp
          rcases List.mem_append.mp hp with h | h
          · exact Or.inl h
          · exact Or.inr (finalizeIdx_self st p h)
        · rw [if_neg hnil] at hp
          by_cases hd : (stripNL line).length < 2 ∨ (stripNL line).get? 1 ≠ some ':'
          · rw [if_pos hd] at hp
            rcases ih none (acc ++ finalizeIdx st) p hp with h | h
            · rcases List.mem_append.mp h with h2 | h2
              · exact Or.inl h2
              · exact Or.inr (finalizeIdx_self st p h2)
            · exact Or.inr h
          · rw [if_neg hd] at hp
            rcases ih _ (acc ++ finalizeIdx st) p hp with h | h
            · rcases List.mem_append.mp h with h2 | h2
              · exact Or.inl h2
              · exact Or.inr (finalizeIdx_self st p h2)
            · exact Or.inr h
      · rw [if_neg hbl] at hp
        dsimp only at hp
        have hnil : ¬line = [] := fun e => hbl (Or.inl e)
        rw [if_neg hnil] at hp
        by_cases hd : (stripNL line).length < 2 ∨ (stripNL line).get? 1 ≠ some ':'
        · rw [if_pos hd] at hp
          exact ih (some st) acc p hp
        · rw [if_neg hd] at hp
          exact ih _ acc p hp

theorem repo_add_apk_pkg_ok (entries : List TarEntry) (p : FinalPkg)
    (h : repo_add_apk_pkg entries = ApkPkgResult.ok p) :
    ∃ st n, apkPkgEntryLoop entries none = (some st, false) ∧ st.name = some n ∧
      p = finalizeCommon st n := by
  unfold repo_add_apk_pkg at h
  rcases hloop : apkPkgEntryLoop entries none with ⟨s, b⟩
  rw [hloop] at h
  cases b with
  | true => cases s <;> simp at h
  | false =>
    cases s with
    | none => simp at h
    | some st =>
      dsimp only at h
      cases hn : st.name with
      | none => rw [hn] at h; simp at h
      | some n =>
        rw [hn] at h
        refine ⟨st, n, rfl, hn, ?_⟩
        injection h with h2
        exact h2.symm

/-- C2: every record finalized by either dialect carries the synthetic
self-provides relation `name == version`, with the version defaulted to the
empty string when absent. -/
theorem apk_c2 :
    (∀ (entries : List TarEntry) (p : FinalPkg),
      repo_add_apk_pkg entries = ApkPkgResult.ok p →
      Dep.rel (Dep.str p.name) (Dep.str p.evr) REL_EQ ∈ p.provides) ∧
    (∀ (lines : List (List Char)) (p : FinalPkg),
      p ∈ apk_process_index lines →
      Dep.rel (Dep.str p.name) (Dep.str p.evr) REL_EQ ∈ p.provides) := by
  constructor
  · intro entries p h
    obtain ⟨st, n, -, -, rfl⟩ := repo_add_apk_pkg_ok entries p h
    exact finalizeCommon_self st n
  · intro lines p h
    rcases apkIdxLoop_self lines none [] p h with h2 | h2
    · simp at h2
    · exact h2

/-- C2 witness: one archive block and one index block, each without any
explicit provides field, still carry the self-relation. -/
theorem apk_c2_witness :
    (∃ p, repo_add_apk_pkg [⟨1, ".PKGINFO".toList, 0, ["pkgname = a".toList]⟩] =
        ApkPkgResult.ok p ∧
      Dep.rel (Dep.str p.name) (Dep.str p.evr) REL_EQ ∈ p.provides) ∧
    (∃ p, p ∈ apk_process_index ["P:a".toList] ∧
      Dep.rel (Dep.str p.name) (Dep.str p.evr) REL_EQ ∈ p.provides) :=
  ⟨⟨⟨"a".toList, [], "noarch".toList, [Dep.rel (Dep.str "a".toList) (Dep.str []) REL_EQ],
      [], [], [], [(AttrKey.sourcename, AttrVal.void)]⟩, by decide,
    apk_c2.1 [⟨1, ".PKGINFO".toList, 0, ["pkgname = a".toList]⟩] _ (by decide)⟩,
   ⟨⟨"a".toList, [], "noarch".toList, [Dep.rel (Dep.str "a".toList) (Dep.str []) REL_EQ],
      [], [], [], [(AttrKey.sourcename, AttrVal.void)]⟩, by decide,
    apk_c2.2 ["P:a".toList] _ (by decide)⟩⟩

/-! ## Claim theorems: oversized metadata -/

theorem apkPkgEntryLoop_skip (pre rest : List TarEntry)
    (hpre : ∀ e ∈ pre, e.etype ≠ 1 ∨ e.path ≠ ".PKGINFO".toList) :
    apkPkgEntryLoop (pre ++ rest) none = apkPkgEntryLoop rest none := by
  induction pre with
  | nil => rfl
  | cons e pre ih =>
    simp only [List.cons_append, apkPkgEntryLoop]
    rw [if_pos ?_]
    · exact ih (fun e2 he2 => hpre e2 (by simp [he2]))
    · rcases hpre e (by simp) with h | h
      · exact Or.inl h
      · exact Or.inr (Or.inl h)

/-- C7: when the first regular-file `.PKGINFO` entry of the archive declares
a size strictly above 10 MiB, `repo_add_apk_pkg` fails with the
oversized-metadata error and no package record is created. -/
theorem apk_c7 (pre post : List TarEntry) (e : TarEntry)
    (hpre : ∀ e2 ∈ pre, e2.etype ≠ 1 ∨ e2.path ≠ ".PKGINFO".toList)
    (h1 : e.etype = 1) (h2 : e.path = ".PKGINFO".toList)
    (hlen : e.length > 10 * 1024 * 1024) :
    repo_add_apk_pkg (pre ++ e :: post) = ApkPkgResult.errOversized := by
  unfold repo_add_apk_pkg
  rw [apkPkgEntryLoop_skip pre (e :: post) hpre]
  simp only [apkPkgEntryLoop]
  rw [if_neg ?_, if_pos hlen]
  rintro (h | h | h)
  · exact h h1
  · exact h h2
  · simp at h

/-- C7 witness: a non-matching entry followed by an oversized `.PKGINFO`. -/
theorem apk_c7_witness :
    repo_add_apk_pkg [⟨0, [], 0, []⟩, ⟨1, ".PKGINFO".toList, 10 * 1024 * 1024 + 1, []⟩] =
      ApkPkgResult.errOversized :=
  apk_c7 [⟨0, [], 0, []⟩] [] ⟨1, ".PKGINFO".toList, 10 * 1024 * 1024 + 1, []⟩
    (fun e2 he2 => by simp at he2; subst he2; exact Or.inl (by decide)) rfl rfl (by decide)

/-! ## Claim theorems: nameless index block -/

theorem appendDepFull_name (w : What) (d : Dep) (sa : PkgState × Option Dep) :
    ((appendDepFull w d sa).1).name = (sa.1).name := by
  cases w <;> rfl

theorem addDepsLoop_name (w : What) (fuel : Nat) :
    ∀ (p : List Char) (sa : PkgState × Option Dep),
      ((addDepsLoop w fuel p sa).1).name = (sa.1).name := by
  induction fuel with
  | zero => intro p sa; rfl
  | succ fuel ih =>
    intro p sa
    simp only [addDepsLoop]
    by_cases hp : p = []
    · rw [if_pos hp]
    · rw [if_neg hp, ih, appendDepFull_name]

theorem add_deps_name (w : What) (p : List Char) (st : PkgState) :
    (add_deps w p st).name = st.name := by
  have h := addDepsLoop_name w (p.length + 1) p (st, none)
  simp only [add_deps]
  cases hsa : (addDepsLoop w (p.length + 1) p (st, none)).2 with
  | none => exact h
  | some d => exact h

theorem setOrigin_name (v : List Char) (st : PkgState) :
    (setOrigin v st).name = st.name := by
  unfold setOrigin
  cases st.name
  · rfl
  · dsimp only
    split_ifs <;> rfl

theorem idxDispatch_name (l2 : List Char) (st : PkgState) (h : ¬(l2.head? = some 'P')) :
    (idxDispatch l2 st).name = st.name := by
  simp only [idxDispatch]
  rw [if_neg h]
  cases apk_add_hdrid (l2.drop 2) <;>
    simp [apply_ite PkgState.name, add_deps_name, setOrigin_name]

theorem apkIdxLoop_skip_block (B rest : List (List Char)) :
    ∀ (s : Option PkgState) (acc : List FinalPkg),
      (∀ l ∈ B, l ≠ [] ∧ l ≠ ['\n'] ∧ ¬setsName l = true) →
      (∀ st, s = some st → st.name = none) →
      apkIdxLoop (B ++ ['\n'] :: rest) s acc = apkIdxLoop rest none acc := by
  induction B with
  | nil =>
    intro s acc hB hs
    simp only [List.nil_append, apkIdxLoop]
    cases s with
    | none =>
      dsimp only
      rw [if_neg (by decide : ¬(['\n'] : List Char) = [])]
      rw [show stripNL ['\n'] = [] from by decide]
      rw [if_pos (by decide : ([] : List Char).length < 2 ∨ ([] : List Char).get? 1 ≠ some ':')]
    | some st =>
      have hname := hs st rfl
      dsimp only
      rw [if_pos (show (['\n'] : List Char) = [] ∨ True from Or.inr trivial)]
      dsimp only
      rw [if_neg (by decide : ¬(['\n'] : List Char) = [])]
      rw [show stripNL ['\n'] = [] from by decide]
      rw [if_pos (by decide : ([] : List Char).length < 2 ∨ ([] : List Char).get? 1 ≠ some ':')]
      rw [show finalizeIdx st = [] from by unfold finalizeIdx; rw [hname], List.append_nil]
  | cons l B ih =>
    intro s acc hB hs
    obtain ⟨hl1, hl2, hl3⟩ := hB l (by simp)
    simp only [List.cons_append, apkIdxLoop]
    cases s with
    | none =>
      dsimp only
      rw [if_neg hl1]
      by_cases hd : (stripNL l).length < 2 ∨ (stripNL l).get? 1 ≠ some ':'
      · rw [if_pos hd]
        exact ih none acc (fun l2 hl => hB l2 (by simp [hl])) (by simp)
      · rw [if_neg hd]
        have hP : ¬((stripNL l).head? = some 'P') := by
          intro hh
          apply hl3
          push_neg at hd
          simp only [setsName, Bool.and_eq_true, decide_eq_true_iff, beq_iff_eq]
          exact ⟨⟨by omega, hd.2⟩, hh⟩
        refine ih _ acc (fun l2 hl => hB l2 (by simp [hl])) ?_
        intro st2 hst2
        injection hst2 with hh
        rw [← hh, idxDispatch_name _ _ hP]
        rfl
    | some st =>
      have hname := hs st rfl
      have hbl : ¬(l = [] ∨ l = ['\n']) := by tauto
      dsimp only
      rw [if_neg hbl]
      dsimp only
      rw [if_neg hl1]
      by_cases hd : (stripNL l).length < 2 ∨ (stripNL l).get? 1 ≠ some ':'
      · rw [if_pos hd]
        refine ih (some st) acc (fun l2 hl => hB l2 (by simp [hl])) ?_
        intro st2 hst2
        injection hst2 with hh
        rw [← hh]
        exact hname
      · rw [if_neg hd]
        have hP : ¬((stripNL l).head? = some 'P') := by
          intro hh
          apply hl3
          push_neg at hd
          simp only [setsName, Bool.and_eq_true, decide_eq_true_iff, beq_iff_eq]
          exact ⟨⟨by omega, hd.2⟩, hh⟩
        refine ih _ acc (fun l2 hl => hB l2 (by simp [hl])) ?_
        intro st2 hst2
        injection hst2 with hh
        rw [← hh, idxDispatch_name _ _ hP]
        exact hname

/-- C8: an index block that closes without ever having set a name (no
well-formed `P:` line) is discarded without being finalized and without
error; parsing continues with the block after the blank line, and the
`repo_add_apk_repo` call (which always returns 0) does not fail. -/
theorem apk_c8 (B rest : List (List Char))
    (hB : ∀ l ∈ B, l ≠ [] ∧ l ≠ ['\n'] ∧ ¬setsName l = true) :
    apk_process_index (B ++ ['\n'] :: rest) = apk_process_index rest ∧
    repo_add_apk_repo_raw (B ++ ['\n'] :: rest) = (apk_process_index rest, 0) := by
  have h := apkIdxLoop_skip_block B rest none [] hB (by simp)
  exact ⟨h, by simp [repo_add_apk_repo_raw, apk_process_index, h]⟩

/-- C8 witness: a block holding only a `V:` line, followed by a named
block. -/
theorem apk_c8_witness :
    apk_process_index (["V:1".toList] ++ ['\n'] :: ["P:a".toList]) =
      apk_process_index ["P:a".toList] ∧
    repo_add_apk_repo_raw (["V:1".toList] ++ ['\n'] :: ["P:a".toList]) =
      (apk_process_index ["P:a".toList], 0) :=
  apk_c8 ["V:1".toList] ["P:a".toList] (by decide)

/-! ## Claim theorems: decompressing stream adapter -/

/-- C4: over one compressed segment's lifetime — from being positioned at
its start (nothing consumed yet, end flag clear) to the step that reports
the end marker — the byte counts handed to the raw-byte observer callback
(each computed as `old_avail_in - zs.avail_in`) sum to exactly the
segment's own compressed length `C`, for every interleaving of caller read
calls (any buffer sizes), buffer refills (any chunk sizes) and inflate
steps permitted by the external inflater's interface. -/
theorem apk_c4 (C : Nat) (cfg0 cfg1 : ZConfig)
    (h0 : cfg0.consumed = 0) (h1 : cfg0.cbSum = 0) (h2 : cfg0.eofFlag = false)
    (hsteps : Relation.ReflTransGen (ApkzStep C) cfg0 cfg1)
    (hend : cfg1.eofFlag = true) :
    cfg1.cbSum = C := by
  have key : ∀ cfgA cfgB, Relation.ReflTransGen (ApkzStep C) cfgA cfgB →
      cfgA.cbSum = cfgA.consumed → (cfgA.eofFlag = true → cfgA.consumed = C) →
      cfgB.cbSum = cfgB.consumed ∧ (cfgB.eofFlag = true → cfgB.consumed = C) := by
    intro cfgA cfgB h
    induction h with
    | refl => intro a b; exact ⟨a, b⟩
    | tail hrest hstep ih =>
      intro a b
      obtain ⟨ia, ib⟩ := ih a b
      rename_i cfgM _
      cases hstep with
      | callRead len hf => exact ⟨ia, ib⟩
      | refill rr hr0 hr1 hr2 hr3 => exact ⟨ia, ib⟩
      | inflateStep c o isEnd hc hseg ho hendc =>
        have hsub : cfgM.availIn - (cfgM.availIn - c) = c := Nat.sub_sub_self hc
        constructor
        · show cfgM.cbSum + (cfgM.availIn - (cfgM.availIn - c)) = cfgM.consumed + c
          rw [hsub, ia]
        · intro he
          show cfgM.consumed + c = C
          cases isEnd with
          | true => exact hendc rfl
          | false =>
            have hflag : cfgM.eofFlag = true := by simpa using he
            have hC := ib hflag
            omega
  obtain ⟨k1, k2⟩ := key cfg0 cfg1 hsteps (by rw [h0, h1])
    (fun he => by rw [h2] at he; exact absurd he (by simp))
  rw [k1]
  exact k2 hend

/-- C4 witness: a one-step lifetime that consumes the whole 1-byte segment
and reports the end marker. -/
theorem apk_c4_witness :
    ((⟨true, 0, 0, 0, 1, 1⟩ : ZConfig)).cbSum = 1 :=
  apk_c4 1 (⟨false, 1, 0, 0, 0, 0⟩ : ZConfig) (⟨true, 0, 0, 0, 1, 1⟩ : ZConfig)
    rfl rfl rfl
    (Relation.ReflTransGen.single
      (ApkzStep.inflateStep _ 1 0 true (by decide) (by decide) (by decide) (fun _ => by decide)))
    rfl
